import Mathlib

/-
Shallow embedding of the MIX simulator core (src/src/main.rs).

Conventions of the embedding:
  * a Rust `Byte` (a `u8` with invariant `< 64`) is modelled as a plain `Nat`;
    the invariant `< 64` appears as a hypothesis on theorems that need it.
    `Byte::new`'s `debug_assert!` is modelled as a fallible constructor
    returning `Option Nat` (`none` on contract violation).
  * a Rust `[Byte; 5]` is modelled as a `List Nat` of length 5
    (most-significant byte first, as in the source).
  * the 4000-cell memory array is modelled as a total function `Nat → Word`;
    the source indexes it unchecked, and every claim under study concerns
    in-range accesses only.
  * Rust's derived `PartialOrd` on `Word` (used by `overflowing_add` via
    `a < -b`) compares the sign first (`Minus < Plus`, declaration order) and
    then the byte arrays lexicographically; this is `Word.lt` below.
-/

set_option maxHeartbeats 2000000

namespace MixSim

/-- BYTE constant of the source: the byte base, 64. -/
def BYTE : Nat := 64

/-- WORD_BYTES constant of the source: a word has 5 bytes. -/
def WORD_BYTES : Nat := 5

/-- Sign of a word: `Minus` before `Plus`, matching the Rust declaration order
used by the derived `PartialOrd`. -/
inductive Sign where
  | Minus
  | Plus
deriving DecidableEq, Repr

/-- Default sign is Plus (Rust `impl Default for Sign`). -/
def Sign.default : Sign := Sign.Plus

/-- Sign::opposite from the source. -/
def Sign.opposite : Sign → Sign
  | Sign.Plus => Sign.Minus
  | Sign.Minus => Sign.Plus

/-- Byte::new from the source: the `debug_assert!(b < BYTE)` is modelled as a
fallible construction returning `none` when the contract is violated, and the
raw value otherwise. -/
def Byte.new (b : Nat) : Option Nat :=
  if b < BYTE then some b else none

/-- Word from the source: a sign and the 5 bytes, most significant first. -/
structure Word where
  sign : Sign
  bytes : List Nat
deriving DecidableEq, Repr

/-- Default word (Rust `#[derive(Default)]`): sign Plus, all bytes zero. -/
def Word.default : Word := ⟨Sign.Plus, [0, 0, 0, 0, 0]⟩

/-- Validity invariant of a Word: exactly 5 bytes, each below 64. -/
def Word.valid (w : Word) : Prop :=
  w.bytes.length = 5 ∧ ∀ b ∈ w.bytes, b < 64

/-- Modification from the source (`enum Modification { Field { l, r } }`). -/
inductive Modification where
  | Field (l : Nat) (r : Nat)
deriving DecidableEq, Repr

/-- Modification::field from the source. -/
def Modification.field (l r : Nat) : Modification := Modification.Field l r

/-- From<Byte> for Modification: decode `l = b / 8`, `r = b % 8`. -/
def Modification.fromByte (b : Nat) : Modification :=
  Modification.field (b / 8) (b % 8)

/-- Into<Byte> for Modification: encode `l * 8 + r`. -/
def Modification.toByte : Modification → Nat
  | Modification.Field l r => l * 8 + r

/-- Word::slice from the source: the sign is Plus when `l > 0` and the source
word's sign otherwise; `len = (r - l) + 1` byte slots are walked, slot `i` is
skipped when `l + i = 0` (the sign position), and otherwise the source byte at
`l + i - 1` is written into result position `WORD_BYTES + i - len`, starting
from an all-zero byte array. -/
def Word.slice (w : Word) (m : Modification) : Word :=
  match m with
  | Modification.Field l r =>
    let sign := if 0 < l then Sign.Plus else w.sign
    let len := (r - l) + 1
    let bytes := (List.range len).foldl
      (fun bs i =>
        if l + i = 0 then bs
        else bs.set (WORD_BYTES + i - len) (w.bytes.getD (l + i - 1) 0))
      [0, 0, 0, 0, 0]
    ⟨sign, bytes⟩

/-- Word::merge from the source: the result starts from `w` (the destination);
its sign is replaced by `word`'s sign when `l = 0`; `len = (r - l) + 1` slots
are walked, slot `i` is skipped when `l + i = 0`, and otherwise `word`'s byte
at position `WORD_BYTES + i - len` is written into result position
`l + i - 1`. -/
def Word.merge (w : Word) (word : Word) (m : Modification) : Word :=
  match m with
  | Modification.Field l r =>
    let sign := if l = 0 then word.sign else w.sign
    let len := (r - l) + 1
    let bytes := (List.range len).foldl
      (fun bs i =>
        if l + i = 0 then bs
        else bs.set (l + i - 1) (word.bytes.getD (WORD_BYTES + i - len) 0))
      w.bytes
    ⟨sign, bytes⟩

/-- std::ops::Neg for Word: flip the sign, keep the magnitude. -/
def Word.neg (w : Word) : Word := ⟨w.sign.opposite, w.bytes⟩

/-- Lexicographic strict order on byte arrays, as produced by Rust's derived
`PartialOrd` on `[Byte; 5]`. -/
def bytesLt : List Nat → List Nat → Bool
  | [], [] => false
  | [], _ :: _ => true
  | _ :: _, [] => false
  | a :: as, b :: bs => decide (a < b) || (decide (a = b) && bytesLt as bs)

/-- Rust's derived `PartialOrd` on `Word` (`a < b`): compare the sign field
first (`Minus < Plus`), then the byte arrays lexicographically. -/
def Word.lt (a b : Word) : Bool :=
  if a.sign = b.sign then bytesLt a.bytes b.bytes
  else decide (a.sign = Sign.Minus)

/-- The same-sign loop of Word::overflowing_add, on byte lists given least
significant byte first (the Rust loop runs the indices in reverse): each step
stores `(a + b + carry) % 64` and passes on `(a + b + carry) / 64`. Returns
the byte list (least significant first) and the final carry. -/
def addRev : List Nat → List Nat → Nat → List Nat × Nat
  | a :: as, b :: bs, c =>
    (((a + b + c) % 64) :: (addRev as bs ((a + b + c) / 64)).1,
     (addRev as bs ((a + b + c) / 64)).2)
  | _, _, c => ([], c)

/-- The differing-sign loop of Word::overflowing_add, on byte lists given
least significant byte first: each step takes `s = a - b - carry` over the
integers, adds 64 and sets carry 1 when `s < 0` (otherwise carry 0), and
stores `|s| % 64`. Returns the byte list (least significant first) and the
final carry (borrow). -/
def subRev : List Nat → List Nat → Nat → List Nat × Nat
  | a :: as, b :: bs, c =>
    ((Int.natAbs
        (if (a : Int) - (b : Int) - (c : Int) < 0
         then (a : Int) - (b : Int) - (c : Int) + 64
         else (a : Int) - (b : Int) - (c : Int)) % 64)
       :: (subRev as bs (if (a : Int) - (b : Int) - (c : Int) < 0 then 1 else 0)).1,
     (subRev as bs (if (a : Int) - (b : Int) - (c : Int) < 0 then 1 else 0)).2)
  | _, _, c => ([], c)

/-- Word::overflowing_add from the source. Same signs: byte-wise base-64
addition with carry, keeping the common sign. Differing signs: the operands
are swapped when `a < -b` under the derived structural order, then byte-wise
subtraction with borrow; the result keeps the (possibly swapped) first
operand's sign. The overflow flag is `0 < carry`. -/
def Word.overflowing_add (a b : Word) : Word × Bool :=
  if a.sign = b.sign then
    let res := addRev a.bytes.reverse b.bytes.reverse 0
    (⟨a.sign, res.1.reverse⟩, decide (0 < res.2))
  else
    let p := if Word.lt a (Word.neg b) then (b, a) else (a, b)
    let res := subRev p.1.bytes.reverse p.2.bytes.reverse 0
    (⟨p.1.sign, res.1.reverse⟩, decide (0 < res.2))

/-- Index register from the source: a sign and two bytes. -/
structure Index where
  sign : Sign
  b0 : Nat
  b1 : Nat
deriving DecidableEq, Repr

/-- Default index register: sign Plus, both bytes zero. -/
def Index.default : Index := ⟨Sign.Plus, 0, 0⟩

/-- From<Word> for Index: keep the sign and the two low bytes (positions 3
and 4). -/
def Index.fromWord (w : Word) : Index :=
  ⟨w.sign, w.bytes.getD 3 0, w.bytes.getD 4 0⟩

/-- Into<Word> for Index: keep the sign, zero-fill the upper three bytes. -/
def Index.toWord (i : Index) : Word :=
  ⟨i.sign, [0, 0, 0, i.b0, i.b1]⟩

/-- Jump register from the source: two bytes, no stored sign. -/
structure Jump where
  b0 : Nat
  b1 : Nat
deriving DecidableEq, Repr

/-- Default jump register: both bytes zero. -/
def Jump.default : Jump := ⟨0, 0⟩

/-- From<Word> for Jump: the two low bytes (positions 3 and 4). -/
def Jump.fromWord (w : Word) : Jump :=
  ⟨w.bytes.getD 3 0, w.bytes.getD 4 0⟩

/-- Into<Word> for Jump: sign forced to Plus, zero-fill the upper three
bytes. -/
def Jump.toWord (j : Jump) : Word :=
  ⟨Sign.Plus, [0, 0, 0, j.b0, j.b1]⟩

/-- Overflow toggle from the source. -/
inductive Toggle where
  | On
  | Off
deriving DecidableEq, Repr

/-- From<bool> for Toggle. -/
def Toggle.ofBool (b : Bool) : Toggle :=
  if b then Toggle.On else Toggle.Off

/-- Comparison indicator from the source. -/
inductive Comparison where
  | Less
  | Equal
  | Greater
deriving DecidableEq, Repr

/-- Index register selector from the source. -/
inductive IndexNumber where
  | I1
  | I2
  | I3
  | I4
  | I5
  | I6
deriving DecidableEq, Repr

/-- Address from the source: a sign and two bytes. -/
structure Address where
  sign : Sign
  b0 : Nat
  b1 : Nat
deriving DecidableEq, Repr

/-- Address::new from the source: the sign of the input, and the absolute
value split into two base-64 bytes (high then low). -/
def Address.new (address : Int) : Address :=
  ⟨if 0 ≤ address then Sign.Plus else Sign.Minus,
   address.natAbs / BYTE, address.natAbs % BYTE⟩

/-- The memory index an address denotes: `bytes[0] * BYTE + bytes[1]`,
the sign being ignored, exactly as in Mix::contents / Mix::save_contents. -/
def Address.index (a : Address) : Nat := a.b0 * BYTE + a.b1

/-- Operation codes from the source. -/
inductive Operation where
  | LDA
  | LDX
  | LD1
  | LD2
  | LD3
  | LD4
  | LD5
  | LD6
  | LDAN
  | LDXN
  | LD1N
  | LD2N
  | LD3N
  | LD4N
  | LD5N
  | LD6N
  | STA
  | STX
  | ST1
  | ST2
  | ST3
  | ST4
  | ST5
  | ST6
  | STJ
  | STZ
  | ADD
deriving DecidableEq, Repr

/-- Operation::default_modification from the source: (0,2) for STJ, (0,5)
for everything else. -/
def Operation.default_modification : Operation → Modification
  | Operation.STJ => Modification.field 0 2
  | _ => Modification.field 0 5

/-- Instruction from the source. -/
structure Instruction where
  operation : Operation
  address : Address
  index : Option IndexNumber
  modification : Option Modification

/-- Machine state from the source; memory is modelled as a total function
from cell index to Word. -/
structure Mix where
  a : Word
  x : Word
  i1 : Index
  i2 : Index
  i3 : Index
  i4 : Index
  i5 : Index
  i6 : Index
  j : Jump
  overflow : Toggle
  comparison_indicator : Comparison
  memory : Nat → Word

/-- Default machine state (Rust `impl Default for Mix`): all registers zero,
overflow Off, comparison Equal, memory all default words. -/
def Mix.default : Mix :=
  ⟨Word.default, Word.default,
   Index.default, Index.default, Index.default,
   Index.default, Index.default, Index.default,
   Jump.default, Toggle.Off, Comparison.Equal,
   fun _ => Word.default⟩

/-- Mix::contents from the source: read the memory cell the address's two
bytes select (sign ignored). -/
def Mix.contents (m : Mix) (address : Address) : Word :=
  m.memory (address.index)

/-- Mix::save_contents from the source: overwrite the memory cell the
address's two bytes select. -/
def Mix.save_contents (m : Mix) (address : Address) (word : Word) : Mix :=
  { m with memory := Function.update m.memory (address.index) word }

/-- Mix::load from the source: read the addressed cell and slice it with the
instruction's modification, or the operation's default one when absent. -/
def Mix.load (m : Mix) (instruction : Instruction) : Word :=
  (m.contents instruction.address).slice
    (instruction.modification.getD instruction.operation.default_modification)

/-- Mix::store from the source: read the addressed cell, merge the given word
into it under the instruction's modification (or the operation's default one),
and write the merged word back. -/
def Mix.store (m : Mix) (word : Word) (instruction : Instruction) : Mix :=
  let cell := m.contents instruction.address
  let field := instruction.modification.getD
    instruction.operation.default_modification
  m.save_contents instruction.address (cell.merge word field)

/-- Mix::exec from the source: single-step dispatch on the operation code. -/
def Mix.exec (m : Mix) (instruction : Instruction) : Mix :=
  match instruction.operation with
  | Operation.LDA => { m with a := m.load instruction }
  | Operation.LDX => { m with x := m.load instruction }
  | Operation.LD1 => { m with i1 := Index.fromWord (m.load instruction) }
  | Operation.LD2 => { m with i2 := Index.fromWord (m.load instruction) }
  | Operation.LD3 => { m with i3 := Index.fromWord (m.load instruction) }
  | Operation.LD4 => { m with i4 := Index.fromWord (m.load instruction) }
  | Operation.LD5 => { m with i5 := Index.fromWord (m.load instruction) }
  | Operation.LD6 => { m with i6 := Index.fromWord (m.load instruction) }
  | Operation.LDAN => { m with a := Word.neg (m.load instruction) }
  | Operation.LDXN => { m with x := Word.neg (m.load instruction) }
  | Operation.LD1N => { m with i1 := Index.fromWord (Word.neg (m.load instruction)) }
  | Operation.LD2N => { m with i2 := Index.fromWord (Word.neg (m.load instruction)) }
  | Operation.LD3N => { m with i3 := Index.fromWord (Word.neg (m.load instruction)) }
  | Operation.LD4N => { m with i4 := Index.fromWord (Word.neg (m.load instruction)) }
  | Operation.LD5N => { m with i5 := Index.fromWord (Word.neg (m.load instruction)) }
  | Operation.LD6N => { m with i6 := Index.fromWord (Word.neg (m.load instruction)) }
  | Operation.STA => m.store m.a instruction
  | Operation.STX => m.store m.x instruction
  | Operation.ST1 => m.store (Index.toWord m.i1) instruction
  | Operation.ST2 => m.store (Index.toWord m.i2) instruction
  | Operation.ST3 => m.store (Index.toWord m.i3) instruction
  | Operation.ST4 => m.store (Index.toWord m.i4) instruction
  | Operation.ST5 => m.store (Index.toWord m.i5) instruction
  | Operation.ST6 => m.store (Index.toWord m.i6) instruction
  | Operation.STJ => m.store (Jump.toWord m.j) instruction
  | Operation.STZ => m.store Word.default instruction
  | Operation.ADD =>
    let res := m.a.overflowing_add (m.load instruction)
    { m with a := res.1, overflow := Toggle.ofBool res.2 }

/-- Modelled from the claim text for C4 (spec section 4.2): the selected byte
positions `max L 1 .. R` of the word are copied into the rightmost byte
positions of the result in order, every other position is zero-filled, and
the sign is Plus when `L > 0` and the source's sign when `L = 0`. -/
def sliceSpec (w : Word) (l r : Nat) : Word :=
  ⟨if 0 < l then Sign.Plus else w.sign,
   List.replicate (5 - ((w.bytes.drop (max l 1 - 1)).take (r + 1 - max l 1)).length) 0
     ++ (w.bytes.drop (max l 1 - 1)).take (r + 1 - max l 1)⟩

/-- Base-64 numeric value of a byte list, most significant byte first
(the magnitude a Word's byte array denotes). -/
def magVal (bs : List Nat) : Nat := bs.foldl (fun acc b => acc * 64 + b) 0

/-- Base-64 numeric value of a byte list, least significant byte first (the
orientation the addition and subtraction loops work in). -/
def valRev : List Nat → Nat
  | [] => 0
  | d :: ds => d + 64 * valRev ds

/-- The load family of operations named by claim C6: LDA, LDX, LD1..LD6 and
their negated variants. -/
def isLoad : Operation → Bool
  | Operation.LDA | Operation.LDX
  | Operation.LD1 | Operation.LD2 | Operation.LD3
  | Operation.LD4 | Operation.LD5 | Operation.LD6
  | Operation.LDAN | Operation.LDXN
  | Operation.LD1N | Operation.LD2N | Operation.LD3N
  | Operation.LD4N | Operation.LD5N | Operation.LD6N => true
  | _ => false

lemma magVal_foldl_acc (bs : List Nat) (acc : Nat) :
    bs.foldl (fun a b => a * 64 + b) acc = acc * 64 ^ bs.length + magVal bs := by
  induction bs generalizing acc with
  | nil => simp [magVal]
  | cons b bs ih =>
    simp only [List.foldl_cons, List.length_cons, magVal]
    rw [ih (acc * 64 + b), ih (0 * 64 + b)]
    ring

lemma magVal_cons (b : Nat) (bs : List Nat) :
    magVal (b :: bs) = b * 64 ^ bs.length + magVal bs := by
  simp only [magVal, List.foldl_cons]
  simpa using magVal_foldl_acc bs b

lemma magVal_lt (bs : List Nat) (h : ∀ b ∈ bs, b < 64) :
    magVal bs < 64 ^ bs.length := by
  induction bs with
  | nil => simp [magVal]
  | cons b bs ih =>
    have hb : b < 64 := h b (List.mem_cons_self b bs)
    have hrest := ih (fun x hx => h x (List.mem_cons_of_mem b hx))
    rw [magVal_cons]
    simp only [List.length_cons, pow_succ]
    have hbN : b * 64 ^ bs.length ≤ 63 * 64 ^ bs.length :=
      Nat.mul_le_mul_right _ (by omega)
    generalize (64 : Nat) ^ bs.length = N at *
    omega

lemma valRev_lt (bs : List Nat) (h : ∀ b ∈ bs, b < 64) :
    valRev bs < 64 ^ bs.length := by
  induction bs with
  | nil => simp [valRev]
  | cons b bs ih =>
    have hb : b < 64 := h b (List.mem_cons_self b bs)
    have hrest := ih (fun x hx => h x (List.mem_cons_of_mem b hx))
    simp only [valRev, List.length_cons, pow_succ]
    generalize (64 : Nat) ^ bs.length = N at *
    omega

lemma valRev_eq_zero (bs : List Nat) (h : valRev bs = 0) :
    bs = List.replicate bs.length 0 := by
  induction bs with
  | nil => simp
  | cons b bs ih =>
    simp only [valRev] at h
    have hb : b = 0 := by omega
    have hrest : valRev bs = 0 := by omega
    rw [List.length_cons, List.replicate_succ, hb]
    exact congrArg (List.cons 0) (ih hrest)

lemma mem5 {p : Nat → Prop} {x0 x1 x2 x3 x4 : Nat}
    (h0 : p x0) (h1 : p x1) (h2 : p x2) (h3 : p x3) (h4 : p x4) :
    ∀ x ∈ [x0, x1, x2, x3, x4], p x := by
  intro x hx
  simp only [List.mem_cons, List.not_mem_nil, or_false] at hx
  rcases hx with rfl | rfl | rfl | rfl | rfl <;> assumption

lemma subRev_spec (xs : List Nat) :
    ∀ ys c, ys.length = xs.length →
    (∀ x ∈ xs, x < 64) → (∀ y ∈ ys, y < 64) → c ≤ 1 →
    (subRev xs ys c).1.length = xs.length ∧
    (∀ z ∈ (subRev xs ys c).1, z < 64) ∧
    (subRev xs ys c).2 ≤ 1 ∧
    valRev (subRev xs ys c).1 + valRev ys + c =
      valRev xs + (subRev xs ys c).2 * 64 ^ xs.length := by
  induction xs with
  | nil =>
    intro ys c hlen hx hy hc
    have hnil : ys = [] := List.length_eq_zero.mp (by simpa using hlen)
    subst hnil
    simp only [subRev, valRev, List.length_nil, pow_zero]
    refine ⟨trivial, ?_, hc, by omega⟩
    intro z hz
    exact absurd hz (List.not_mem_nil z)
  | cons x xs ih =>
    intro ys c hlen hx hy hc
    match ys, hlen with
    | y :: ys, hlen =>
      have hlen2 : ys.length = xs.length := by simpa using hlen
      have hxx : x < 64 := hx x (List.mem_cons_self x xs)
      have hyy : y < 64 := hy y (List.mem_cons_self y ys)
      have hx2 : ∀ a ∈ xs, a < 64 := fun a ha => hx a (List.mem_cons_of_mem x ha)
      have hy2 : ∀ a ∈ ys, a < 64 := fun a ha => hy a (List.mem_cons_of_mem y ha)
      by_cases hneg : (x : Int) - (y : Int) - (c : Int) < 0
      · obtain ⟨hL, hDig, hC, hV⟩ := ih ys 1 hlen2 hx2 hy2 (le_refl 1)
        simp only [subRev, if_pos hneg, valRev, List.length_cons, pow_succ,
          List.mem_cons]
        refine ⟨by simpa using hL, ?_, hC, ?_⟩
        · rintro z (rfl | hz)
          · omega
          · exact hDig z hz
        · rcases Nat.le_one_iff_eq_zero_or_eq_one.mp hC with hC0 | hC1
          · rw [hC0] at hV ⊢
            generalize (64 : Nat) ^ xs.length = N at hV ⊢
            omega
          · rw [hC1] at hV ⊢
            generalize (64 : Nat) ^ xs.length = N at hV ⊢
            omega
      · obtain ⟨hL, hDig, hC, hV⟩ := ih ys 0 hlen2 hx2 hy2 (by omega)
        simp only [subRev, if_neg hneg, valRev, List.length_cons, pow_succ,
          List.mem_cons]
        refine ⟨by simpa using hL, ?_, hC, ?_⟩
        · rintro z (rfl | hz)
          · omega
          · exact hDig z hz
        · rcases Nat.le_one_iff_eq_zero_or_eq_one.mp hC with hC0 | hC1
          · rw [hC0] at hV ⊢
            generalize (64 : Nat) ^ xs.length = N at hV ⊢
            omega
          · rw [hC1] at hV ⊢
            generalize (64 : Nat) ^ xs.length = N at hV ⊢
            omega

lemma bytesLt_iff (xs : List Nat) :
    ∀ ys, ys.length = xs.length →
    (∀ x ∈ xs, x < 64) → (∀ y ∈ ys, y < 64) →
    (bytesLt xs ys = true ↔ magVal xs < magVal ys) := by
  induction xs with
  | nil =>
    intro ys hlen hx hy
    have hnil : ys = [] := List.length_eq_zero.mp (by simpa using hlen)
    subst hnil
    simp [bytesLt, magVal]
  | cons x xs ih =>
    intro ys hlen hx hy
    match ys, hlen with
    | y :: ys, hlen =>
      have hlen2 : ys.length = xs.length := by simpa using hlen
      have hxx : x < 64 := hx x (List.mem_cons_self x xs)
      have hyy : y < 64 := hy y (List.mem_cons_self y ys)
      have hx2 : ∀ a ∈ xs, a < 64 := fun a ha => hx a (List.mem_cons_of_mem x ha)
      have hy2 : ∀ a ∈ ys, a < 64 := fun a ha => hy a (List.mem_cons_of_mem y ha)
      have hvx := magVal_lt xs hx2
      have hvy := magVal_lt ys hy2
      have hIH := ih ys hlen2 hx2 hy2
      rw [hlen2] at hvy
      rw [magVal_cons, magVal_cons, hlen2]
      rcases Nat.lt_trichotomy x y with hxy | hxy | hxy
      · have hmul : (x + 1) * 64 ^ xs.length ≤ y * 64 ^ xs.length :=
          Nat.mul_le_mul_right _ (by omega)
        have hexp : (x + 1) * 64 ^ xs.length = x * 64 ^ xs.length + 64 ^ xs.length := by
          ring
        simp only [bytesLt, Bool.or_eq_true, decide_eq_true_eq]
        generalize (64 : Nat) ^ xs.length = N at *
        constructor
        · intro _
          omega
        · intro _
          exact Or.inl hxy
      · subst hxy
        simp only [bytesLt, Bool.or_eq_true, Bool.and_eq_true, decide_eq_true_eq, hIH,
          lt_self_iff_false, false_or, true_and, eq_self_iff_true]
        generalize (64 : Nat) ^ xs.length = N at *
        omega
      · have hmul : (y + 1) * 64 ^ xs.length ≤ x * 64 ^ xs.length :=
          Nat.mul_le_mul_right _ (by omega)
        have hexp : (y + 1) * 64 ^ xs.length = y * 64 ^ xs.length + 64 ^ xs.length := by
          ring
        simp only [bytesLt, Bool.or_eq_true, Bool.and_eq_true, decide_eq_true_eq]
        generalize (64 : Nat) ^ xs.length = N at *
        constructor
        · intro h
          rcases h with h | ⟨h, _⟩ <;> omega
        · intro h
          omega

lemma overflowing_add_diff_eq (sa sb : Sign) (A B : List Nat) (hs : sa ≠ sb) :
    Word.overflowing_add ⟨sa, A⟩ ⟨sb, B⟩ =
      if bytesLt A B then
        (⟨sb, (subRev B.reverse A.reverse 0).1.reverse⟩,
         decide (0 < (subRev B.reverse A.reverse 0).2))
      else
        (⟨sa, (subRev A.reverse B.reverse 0).1.reverse⟩,
         decide (0 < (subRev A.reverse B.reverse 0).2)) := by
  cases sa <;> cases sb <;>
    simp_all [Word.overflowing_add, Word.lt, Word.neg, Sign.opposite] <;>
    split_ifs <;>
    rfl

/-- C9: for every pair (L,R) with 0 ≤ L ≤ R ≤ 5, decoding the byte L·8+R
yields the field specification (L,R), and re-encoding that field
specification yields the byte L·8+R again. -/
theorem field_byte_roundtrip (l r : Nat) (hlr : l ≤ r) (hr : r ≤ 5) :
    Modification.fromByte (Modification.toByte (Modification.field l r)) =
        Modification.field l r ∧
    Modification.toByte (Modification.fromByte (l * 8 + r)) = l * 8 + r := by
  refine ⟨?_, ?_⟩ <;>
    simp [Modification.fromByte, Modification.toByte, Modification.field] <;>
    omega

/-- Witness for field_byte_roundtrip at (L,R) = (2,5). -/
theorem field_byte_roundtrip_witness :
    Modification.fromByte (Modification.toByte (Modification.field 2 5)) =
        Modification.field 2 5 ∧
    Modification.toByte (Modification.fromByte (2 * 8 + 5)) = 2 * 8 + 5 :=
  field_byte_roundtrip 2 5 (by decide) (by decide)

/-- C5: for every input b ≥ 64, Byte::new fails with the invalid-byte
condition (modelled as `none`); in particular no clamped, wrapped, or
silently accepted out-of-range value is ever produced. -/
theorem byte_new_rejects_out_of_range (b : Nat) (hb : 64 ≤ b) :
    Byte.new b = none := by
  have hnot : ¬ b < BYTE := by
    simp only [BYTE]
    omega
  simp [Byte.new, hnot]

/-- Witness for byte_new_rejects_out_of_range at b = 64. -/
theorem byte_new_rejects_out_of_range_witness : Byte.new 64 = none :=
  byte_new_rejects_out_of_range 64 (by decide)

/-- C1: for every Word with all five bytes in [0,64) and every field
specification (L,R) with 0 ≤ L ≤ R ≤ 5, merging the slice of the word back
into the word under the same field specification reproduces the word exactly
(same sign and same five bytes). -/
theorem merge_slice_roundtrip (s : Sign) (b0 b1 b2 b3 b4 l r : Nat)
    (h0 : b0 < 64) (h1 : b1 < 64) (h2 : b2 < 64) (h3 : b3 < 64) (h4 : b4 < 64)
    (hlr : l ≤ r) (hr : r ≤ 5) :
    Word.merge ⟨s, [b0, b1, b2, b3, b4]⟩
        (Word.slice ⟨s, [b0, b1, b2, b3, b4]⟩ (Modification.field l r))
        (Modification.field l r) =
      ⟨s, [b0, b1, b2, b3, b4]⟩ := by
  have hl : l ≤ 5 := le_trans hlr hr
  interval_cases l <;> interval_cases r <;> rfl

/-- Witness for merge_slice_roundtrip at the word (Minus,1,16,3,5,4) and the
field specification (0,3). -/
theorem merge_slice_roundtrip_witness :
    Word.merge ⟨Sign.Minus, [1, 16, 3, 5, 4]⟩
        (Word.slice ⟨Sign.Minus, [1, 16, 3, 5, 4]⟩ (Modification.field 0 3))
        (Modification.field 0 3) =
      ⟨Sign.Minus, [1, 16, 3, 5, 4]⟩ :=
  merge_slice_roundtrip Sign.Minus 1 16 3 5 4 0 3
    (by decide) (by decide) (by decide) (by decide) (by decide)
    (by decide) (by decide)

/-- C4: for every Word and field specification (L,R) with 0 ≤ L ≤ R ≤ 5,
slice places the bytes at positions max(L,1)..R into the rightmost byte
positions of the result in order, zero-fills every other byte position, and
sets the sign to Plus when L > 0 and to the word's sign when L = 0. -/
theorem slice_places_selected_bytes (s : Sign) (b0 b1 b2 b3 b4 l r : Nat)
    (h0 : b0 < 64) (h1 : b1 < 64) (h2 : b2 < 64) (h3 : b3 < 64) (h4 : b4 < 64)
    (hlr : l ≤ r) (hr : r ≤ 5) :
    Word.slice ⟨s, [b0, b1, b2, b3, b4]⟩ (Modification.field l r) =
      sliceSpec ⟨s, [b0, b1, b2, b3, b4]⟩ l r := by
  have hl : l ≤ 5 := le_trans hlr hr
  interval_cases l <;> interval_cases r <;> rfl

/-- Witness for slice_places_selected_bytes at the word (Minus,1,16,3,5,4)
and the field specification (3,5). -/
theorem slice_places_selected_bytes_witness :
    Word.slice ⟨Sign.Minus, [1, 16, 3, 5, 4]⟩ (Modification.field 3 5) =
      sliceSpec ⟨Sign.Minus, [1, 16, 3, 5, 4]⟩ 3 5 :=
  slice_places_selected_bytes Sign.Minus 1 16 3 5 4 3 5
    (by decide) (by decide) (by decide) (by decide) (by decide)
    (by decide) (by decide)

/-- C3: for every pair of Words with the same sign, overflowing_add performs
byte-wise base-64 addition from the least significant byte upward with carry
propagation: the result keeps the common sign, each result byte is
(a_i + b_i + carry_in) mod 64, and the overflow flag is true exactly when a
carry remains after the most significant bytes. -/
theorem overflowing_add_same_sign (s : Sign)
    (a0 a1 a2 a3 a4 b0 b1 b2 b3 b4 : Nat)
    (ha0 : a0 < 64) (ha1 : a1 < 64) (ha2 : a2 < 64) (ha3 : a3 < 64) (ha4 : a4 < 64)
    (hb0 : b0 < 64) (hb1 : b1 < 64) (hb2 : b2 < 64) (hb3 : b3 < 64) (hb4 : b4 < 64)
    (k4 k3 k2 k1 : Nat)
    (e4 : k4 = (a4 + b4) / 64)
    (e3 : k3 = (a3 + b3 + k4) / 64)
    (e2 : k2 = (a2 + b2 + k3) / 64)
    (e1 : k1 = (a1 + b1 + k2) / 64) :
    Word.overflowing_add ⟨s, [a0, a1, a2, a3, a4]⟩ ⟨s, [b0, b1, b2, b3, b4]⟩ =
      (⟨s, [(a0 + b0 + k1) % 64, (a1 + b1 + k2) % 64, (a2 + b2 + k3) % 64,
            (a3 + b3 + k4) % 64, (a4 + b4) % 64]⟩,
       decide (0 < (a0 + b0 + k1) / 64)) := by
  subst e4 e3 e2 e1
  simp [Word.overflowing_add, addRev]

/-- Witness for overflowing_add_same_sign: (Plus,63,0,0,0,0) plus
(Plus,2,0,0,0,0) gives (Plus,1,0,0,0,0) with overflow. -/
theorem overflowing_add_same_sign_witness :
    Word.overflowing_add ⟨Sign.Plus, [63, 0, 0, 0, 0]⟩ ⟨Sign.Plus, [2, 0, 0, 0, 0]⟩ =
      (⟨Sign.Plus, [(63 + 2 + 0) % 64, (0 + 0 + 0) % 64, (0 + 0 + 0) % 64,
        (0 + 0 + 0) % 64, (0 + 0) % 64]⟩,
       decide (0 < (63 + 2 + 0) / 64)) :=
  overflowing_add_same_sign Sign.Plus 63 0 0 0 0 2 0 0 0 0
    (by decide) (by decide) (by decide) (by decide) (by decide)
    (by decide) (by decide) (by decide) (by decide) (by decide)
    0 0 0 0 rfl rfl rfl rfl

/-- C2: for every pair of Words with differing signs, overflowing_add returns
overflow false; the result sign is the sign of the larger-magnitude operand;
and when the magnitudes are equal the result magnitude is zero and the result
keeps the first operand's sign (the structural tie-break: a negative first
operand gives negative zero, a positive first operand gives positive
zero). -/
theorem overflowing_add_diff_sign (sa sb : Sign)
    (a0 a1 a2 a3 a4 b0 b1 b2 b3 b4 : Nat)
    (ha0 : a0 < 64) (ha1 : a1 < 64) (ha2 : a2 < 64) (ha3 : a3 < 64) (ha4 : a4 < 64)
    (hb0 : b0 < 64) (hb1 : b1 < 64) (hb2 : b2 < 64) (hb3 : b3 < 64) (hb4 : b4 < 64)
    (hs : sa ≠ sb) :
    (Word.overflowing_add ⟨sa, [a0, a1, a2, a3, a4]⟩ ⟨sb, [b0, b1, b2, b3, b4]⟩).2 =
        false ∧
    (magVal [b0, b1, b2, b3, b4] < magVal [a0, a1, a2, a3, a4] →
      (Word.overflowing_add ⟨sa, [a0, a1, a2, a3, a4]⟩
          ⟨sb, [b0, b1, b2, b3, b4]⟩).1.sign = sa) ∧
    (magVal [a0, a1, a2, a3, a4] < magVal [b0, b1, b2, b3, b4] →
      (Word.overflowing_add ⟨sa, [a0, a1, a2, a3, a4]⟩
          ⟨sb, [b0, b1, b2, b3, b4]⟩).1.sign = sb) ∧
    (magVal [a0, a1, a2, a3, a4] = magVal [b0, b1, b2, b3, b4] →
      (Word.overflowing_add ⟨sa, [a0, a1, a2, a3, a4]⟩
          ⟨sb, [b0, b1, b2, b3, b4]⟩).1 = ⟨sa, [0, 0, 0, 0, 0]⟩) := by
  have hA : ∀ x ∈ [a0, a1, a2, a3, a4], x < 64 := mem5 ha0 ha1 ha2 ha3 ha4
  have hB : ∀ x ∈ [b0, b1, b2, b3, b4], x < 64 := mem5 hb0 hb1 hb2 hb3 hb4
  have hAr : ∀ x ∈ [a4, a3, a2, a1, a0], x < 64 := mem5 ha4 ha3 ha2 ha1 ha0
  have hBr : ∀ x ∈ [b4, b3, b2, b1, b0], x < 64 := mem5 hb4 hb3 hb2 hb1 hb0
  have hrevA : [a0, a1, a2, a3, a4].reverse = [a4, a3, a2, a1, a0] := by simp
  have hrevB : [b0, b1, b2, b3, b4].reverse = [b4, b3, b2, b1, b0] := by simp
  have hlex := bytesLt_iff [a0, a1, a2, a3, a4] [b0, b1, b2, b3, b4] rfl hA hB
  rw [overflowing_add_diff_eq sa sb _ _ hs, hrevA, hrevB]
  cases hlt : bytesLt [a0, a1, a2, a3, a4] [b0, b1, b2, b3, b4] with
  | true =>
    have hmag : magVal [a0, a1, a2, a3, a4] < magVal [b0, b1, b2, b3, b4] :=
      hlex.mp hlt
    obtain ⟨hL, hDig, hC, hV⟩ :=
      subRev_spec [b4, b3, b2, b1, b0] [a4, a3, a2, a1, a0] 0 rfl hBr hAr (by omega)
    rw [if_pos rfl]
    rcases hsub : subRev [b4, b3, b2, b1, b0] [a4, a3, a2, a1, a0] 0 with ⟨zs, cout⟩
    rw [hsub] at hL hDig hC hV
    dsimp only at hL hDig hC hV ⊢
    clear hsub
    have hzslt := valRev_lt zs hDig
    rw [hL] at hzslt
    simp only [valRev, List.length_cons, List.length_nil] at hV hzslt
    norm_num at hV hzslt
    simp only [magVal, List.foldl] at hmag
    have hcout : cout = 0 := by
      rcases Nat.le_one_iff_eq_zero_or_eq_one.mp hC with h0 | h1
      · exact h0
      · rw [h1] at hV
        omega
    refine ⟨?_, ?_, ?_, ?_⟩
    · rw [hcout]
      rfl
    · intro h
      exfalso
      simp only [magVal, List.foldl] at h
      omega
    · intro _
      rfl
    · intro h
      exfalso
      simp only [magVal, List.foldl] at h
      omega
  | false =>
    rw [hlt] at hlex
    have hmagn : ¬ magVal [a0, a1, a2, a3, a4] < magVal [b0, b1, b2, b3, b4] := by
      intro h
      exact absurd (hlex.mpr h) (by simp)
    obtain ⟨hL, hDig, hC, hV⟩ :=
      subRev_spec [a4, a3, a2, a1, a0] [b4, b3, b2, b1, b0] 0 rfl hAr hBr (by omega)
    rw [if_neg (by simp)]
    rcases hsub : subRev [a4, a3, a2, a1, a0] [b4, b3, b2, b1, b0] 0 with ⟨zs, cout⟩
    rw [hsub] at hL hDig hC hV
    dsimp only at hL hDig hC hV ⊢
    clear hsub
    have hzslt := valRev_lt zs hDig
    rw [hL] at hzslt
    simp only [valRev, List.length_cons, List.length_nil] at hV hzslt
    norm_num at hV hzslt
    simp only [magVal, List.foldl] at hmagn
    have hcout : cout = 0 := by
      rcases Nat.le_one_iff_eq_zero_or_eq_one.mp hC with h0 | h1
      · exact h0
      · rw [h1] at hV
        omega
    refine ⟨?_, ?_, ?_, ?_⟩
    · rw [hcout]
      rfl
    · intro _
      rfl
    · intro h
      exfalso
      simp only [magVal, List.foldl] at h
      omega
    · intro h
      simp only [magVal, List.foldl] at h
      rw [hcout] at hV
      have hzero : valRev zs = 0 := by
        omega
      have hlen5 : zs.length = 5 := by
        rw [hL]
        rfl
      have hrepl := valRev_eq_zero zs hzero
      rw [hlen5] at hrepl
      rw [hrepl]
      rfl

/-- Witness for overflowing_add_diff_sign: (Minus,0,0,0,0,1) plus
(Plus,0,0,0,0,1) — equal magnitudes, negative first operand. -/
theorem overflowing_add_diff_sign_witness :
    (Word.overflowing_add ⟨Sign.Minus, [0, 0, 0, 0, 1]⟩
        ⟨Sign.Plus, [0, 0, 0, 0, 1]⟩).2 = false ∧
    (magVal [0, 0, 0, 0, 1] < magVal [0, 0, 0, 0, 1] →
      (Word.overflowing_add ⟨Sign.Minus, [0, 0, 0, 0, 1]⟩
          ⟨Sign.Plus, [0, 0, 0, 0, 1]⟩).1.sign = Sign.Minus) ∧
    (magVal [0, 0, 0, 0, 1] < magVal [0, 0, 0, 0, 1] →
      (Word.overflowing_add ⟨Sign.Minus, [0, 0, 0, 0, 1]⟩
          ⟨Sign.Plus, [0, 0, 0, 0, 1]⟩).1.sign = Sign.Plus) ∧
    (magVal [0, 0, 0, 0, 1] = magVal [0, 0, 0, 0, 1] →
      (Word.overflowing_add ⟨Sign.Minus, [0, 0, 0, 0, 1]⟩
          ⟨Sign.Plus, [0, 0, 0, 0, 1]⟩).1 = ⟨Sign.Minus, [0, 0, 0, 0, 0]⟩) :=
  overflowing_add_diff_sign Sign.Minus Sign.Plus 0 0 0 0 1 0 0 0 0 1
    (by decide) (by decide) (by decide) (by decide) (by decide)
    (by decide) (by decide) (by decide) (by decide) (by decide)
    (by decide)

/-- C6: for every machine state and every instruction whose operation is in
the load family or is ADD, exec leaves the entire memory unchanged. -/
theorem exec_load_add_preserves_memory (m : Mix) (op : Operation)
    (addr : Address) (ix : Option IndexNumber) (mo : Option Modification)
    (h : isLoad op = true ∨ op = Operation.ADD) :
    (Mix.exec m ⟨op, addr, ix, mo⟩).memory = m.memory := by
  cases op <;>
    first
      | rfl
      | (exfalso
         rcases h with h | h <;> simp [isLoad] at h)

/-- Witness for exec_load_add_preserves_memory: an LDA on the default
machine. -/
theorem exec_load_add_preserves_memory_witness :
    (Mix.exec Mix.default
        ⟨Operation.LDA, Address.new 2000, none, none⟩).memory =
      Mix.default.memory :=
  exec_load_add_preserves_memory Mix.default Operation.LDA (Address.new 2000)
    none none (Or.inl (by decide))

/-- C7: for every machine state and every ADD instruction, exec replaces the
accumulator with the sum component of overflowing_add of the accumulator and
the addend (the addressed cell sliced with the instruction's field
specification, defaulting to (0,5)), and sets the overflow toggle from the
carry-out flag (On for true, Off for false); the memory is unchanged. -/
theorem exec_add_updates_accumulator (m : Mix) (addr : Address)
    (ix : Option IndexNumber) (mo : Option Modification) :
    (Mix.exec m ⟨Operation.ADD, addr, ix, mo⟩).a =
      (m.a.overflowing_add
        ((m.contents addr).slice (mo.getD (Modification.field 0 5)))).1 ∧
    (Mix.exec m ⟨Operation.ADD, addr, ix, mo⟩).overflow =
      Toggle.ofBool (m.a.overflowing_add
        ((m.contents addr).slice (mo.getD (Modification.field 0 5)))).2 ∧
    (Mix.exec m ⟨Operation.ADD, addr, ix, mo⟩).memory = m.memory ∧
    Toggle.ofBool true = Toggle.On ∧ Toggle.ofBool false = Toggle.Off :=
  ⟨rfl, rfl, rfl, rfl, rfl⟩

/-- C8: an STJ with no explicit field specification stores the jump register
under the default field specification (0,2); the jump register's Word form
has sign Plus, zeros in the upper three byte positions and the jump
register's two bytes in the low positions; STJ's default field specification
is (0,2) while every other operation's default is (0,5). -/
theorem exec_stj_default_field (m : Mix) (addr : Address)
    (ix : Option IndexNumber) (op : Operation) :
    (Mix.exec m ⟨Operation.STJ, addr, ix, none⟩).memory =
      Function.update m.memory addr.index
        ((m.memory addr.index).merge
          ⟨Sign.Plus, [0, 0, 0, m.j.b0, m.j.b1]⟩ (Modification.field 0 2)) ∧
    Jump.toWord m.j = ⟨Sign.Plus, [0, 0, 0, m.j.b0, m.j.b1]⟩ ∧
    Operation.default_modification op =
      (if op = Operation.STJ then Modification.field 0 2
       else Modification.field 0 5) := by
  refine ⟨rfl, rfl, ?_⟩
  cases op <;> rfl

/-- C10: exec never changes the comparison indicator, and every operation
other than ADD leaves the overflow toggle unchanged. -/
theorem exec_preserves_comparison_and_overflow (m : Mix) (op : Operation)
    (addr : Address) (ix : Option IndexNumber) (mo : Option Modification) :
    (Mix.exec m ⟨op, addr, ix, mo⟩).comparison_indicator =
        m.comparison_indicator ∧
    ((Mix.exec m ⟨op, addr, ix, mo⟩).overflow = m.overflow ∨
      op = Operation.ADD) := by
  cases op <;>
    refine ⟨rfl, ?_⟩ <;>
    first
      | exact Or.inl rfl
      | exact Or.inr rfl

end MixSim
